import Mathlib

/-!
Verification of the i18n key analyzer (tools/i18n-analyzer/main.py).

The program text is shallowly embedded: file contents are lists of
characters, the regular-expression scans of the Python source are
reimplemented as executable character-level scanners with the same
semantics (multiline anchors, lazy tails, negative lookbehind), and the
reconciliation pipeline of main() is an explicit function over the
extracted tables.  Python str positions are character positions, matching
List Char indices.  Character classes follow the ASCII reading of the
Python classes used by the tool.
-/

namespace I18n

/-- Python regex class backslash-s, ASCII part. -/
def isSpaceCh (c : Char) : Bool :=
  c = ' ' || c = '\t' || c = '\n' || c = '\r' || c = '\x0b' || c = '\x0c'

/-- Python regex class backslash-w, ASCII part (identifier characters). -/
def isWordCh (c : Char) : Bool :=
  c.isAlphanum || c = '_'

/-- Valid i18n key characters, class [a-zA-Z0-9._-] of the scanner patterns. -/
def isKeyCh (c : Char) : Bool :=
  c.isAlphanum || c = '.' || c = '_' || c = '-'

/-- First character of an identifier segment, class [a-zA-Z_]. -/
def isIdentStart (c : Char) : Bool :=
  c.isAlpha || c = '_'

/-- Later characters of an identifier segment, class [a-zA-Z0-9_]. -/
def isIdentCh (c : Char) : Bool :=
  c.isAlphanum || c = '_'

/-- Quote characters accepted by the scanner patterns. -/
def isQuoteCh (c : Char) : Bool :=
  c = '\x27' || c = '"' || c = '\x60'

/-- Append-flattening map over a list (the nested loops of the Python scanners). -/
def concatMap (f : α → List β) : List α → List β
  | [] => []
  | x :: t => f x ++ concatMap f t

/-- Test that pat occurs at the head of cs. -/
def startsList : List Char → List Char → Bool
  | [], _ => true
  | _ :: _, [] => false
  | p :: ps, c :: cs => p = c && startsList ps cs

/-- Index of the first occurrence of the two-character sequence a b. -/
def findPair (a b : Char) : List Char → Option Nat
  | [] => none
  | [_] => none
  | c :: d :: rest =>
    if c = a && d = b then some 0
    else (findPair a b (d :: rest)).map (· + 1)

/-- Split a character buffer on newline characters, like Python split. -/
def splitNl (cs : List Char) : List (List Char) :=
  cs.foldr
    (fun c acc =>
      match acc with
      | [] => if c = '\n' then [[], []] else [[c]]
      | h :: t => if c = '\n' then [] :: h :: t else (c :: h) :: t)
    [[]]

/-- Join lines with newline characters, inverse of splitNl. -/
def joinNl : List (List Char) → List Char
  | [] => []
  | [l] => l
  | l :: rest => l ++ '\n' :: joinNl rest

/-- Number of lines of a buffer, as Python split on newline counts them. -/
def lineCount (cs : List Char) : Nat :=
  (splitNl cs).length

/-- Line number (1-based) of character position p, as the Python code derives
it: one plus the count of newline characters before the match start. -/
def lineNumAt (cs : List Char) (p : Nat) : Nat :=
  (cs.take p).count '\n' + 1

/-- Cut one physical line at its first line comment, the per-line effect of
re.sub of slash-slash-dot-star-lazy-dollar with MULTILINE. -/
def cutLineComment (line : List Char) : List Char :=
  match findPair '/' '/' line with
  | some i => line.take i
  | none => line

/-- Remove every line-comment suffix; newlines are kept, so the line count is
unchanged by this step. -/
def stripLineComments (cs : List Char) : List Char :=
  joinNl ((splitNl cs).map cutLineComment)

/-- Fueled worker for block-comment removal: repeatedly delete from the first
open marker to the first close marker after it (lazy, DOTALL), newlines
inside included, exactly as re.sub of the block-comment pattern does. -/
def stripBlockF : Nat → List Char → List Char
  | 0, cs => cs
  | fuel + 1, cs =>
    match findPair '/' '*' cs with
    | none => cs
    | some i =>
      match findPair '*' '/' (cs.drop (i + 2)) with
      | none => cs
      | some j => cs.take i ++ stripBlockF fuel ((cs.drop (i + 2)).drop (j + 2))

/-- Remove every block comment, multi-line ones included. -/
def stripBlockComments (cs : List Char) : List Char :=
  stripBlockF cs.length cs

/-- The comment stripper of main.py: line comments first, then block
comments, in the order the two re.sub calls run. -/
def stripComments (cs : List Char) : List Char :=
  stripBlockComments (stripLineComments cs)

/-! Hierarchical key extraction (extract_keys_from_locale / _from_types).

A declaration pattern is anchored at a line start and reads: optional
whitespace (which, as in the Python MULTILINE patterns, may cross
newlines), an identifier, optional whitespace, a colon, optional
whitespace, and a delimiter.  The delimiter is an open brace for
categories, a quote character for locale leaves, and the literal
string-semicolon token for type leaves.  All whitespace runs are maximal;
every character class involved is disjoint from its neighbour, so the
regex match is this deterministic parse. -/

/-- Delimiter recognizer: number of characters the delimiter consumes. -/
def braceDelim (cs : List Char) : Option Nat :=
  match cs with
  | '\x7b' :: _ => some 1
  | _ => none

/-- Quote delimiter of the locale leaf pattern. -/
def quoteDelim (cs : List Char) : Option Nat :=
  match cs with
  | c :: _ => if isQuoteCh c then some 1 else none
  | [] => none

/-- Type-leaf delimiter: the literal characters of the token string-semicolon. -/
def typesDelim (cs : List Char) : Option Nat :=
  if startsList ['s', 't', 'r', 'i', 'n', 'g', ';'] cs then some 7 else none

/-- Try one declaration pattern at a line-start position: returns the matched
identifier and the total number of characters consumed. -/
def tryDecl (delim : List Char → Option Nat) (cs : List Char) : Option (String × Nat) :=
  let w0 := (cs.takeWhile isSpaceCh).length
  let r1 := cs.drop w0
  match r1 with
  | c :: _ =>
    if isIdentStart c then
      let name := r1.takeWhile isIdentCh
      let r2 := r1.drop name.length
      let w1 := (r2.takeWhile isSpaceCh).length
      match r2.drop w1 with
      | ':' :: r3 =>
        let w2 := (r3.takeWhile isSpaceCh).length
        match delim (r3.drop w2) with
        | some d => some (String.mk name, w0 + name.length + w1 + 1 + w2 + d)
        | none => none
      | _ => none
    else none
  | [] => none

/-- One finditer pass of a MULTILINE-anchored declaration pattern: a match may
start only at a line start, matches do not overlap, and scanning resumes
right after each match.  The skip counter walks through the remainder of a
match so that the line-start flag is recomputed from the actual characters. -/
def scanDecls (delim : List Char → Option Nat) :
    List Char → Nat → Bool → Nat → List (Nat × String)
  | [], _, _, _ => []
  | c :: rest, pos, _, Nat.succ sk => scanDecls delim rest (pos + 1) (c = '\n') sk
  | c :: rest, pos, atStart, 0 =>
    if atStart then
      match tryDecl delim (c :: rest) with
      | some (name, len) => (pos, name) :: scanDecls delim rest (pos + 1) (c = '\n') (len - 1)
      | none => scanDecls delim rest (pos + 1) (c = '\n') 0
    else scanDecls delim rest (pos + 1) (c = '\n') 0

/-- All matches of one declaration pattern over a buffer. -/
def declMatches (delim : List Char → Option Nat) (cs : List Char) : List (Nat × String) :=
  scanDecls delim cs 0 true 0

/-- One collected declaration match: position, derived line number, segment
name, category flag — the tuple the Python code sorts and processes. -/
structure Decl where
  pos : Nat
  line : Nat
  key : String
  isCat : Bool
deriving DecidableEq, Repr

/-- Insert into a position-sorted list, keeping earlier-listed elements first
on equal positions; folding this from the right is the stable sort by
position that the Python code performs. -/
def insertByPos (d : Decl) : List Decl → List Decl
  | [] => [d]
  | e :: t => if d.pos ≤ e.pos then d :: e :: t else e :: insertByPos d t

/-- Stable sort by match position. -/
def sortByPos (l : List Decl) : List Decl :=
  l.foldr insertByPos []

/-- The merged, position-sorted match list of the category and leaf passes
over an already comment-stripped buffer. -/
def allDeclMatches (leafDelim : List Char → Option Nat) (stripped : List Char) : List Decl :=
  let cats := (declMatches braceDelim stripped).map
    (fun m => Decl.mk m.1 (lineNumAt stripped m.1) m.2 true)
  let vals := (declMatches leafDelim stripped).map
    (fun m => Decl.mk m.1 (lineNumAt stripped m.1) m.2 false)
  sortByPos (cats ++ vals)

/-- Leading-whitespace width of a physical line, the indentation measure. -/
def indentOf (line : List Char) : Nat :=
  (line.takeWhile isSpaceCh).length

/-- Pop stack entries whose recorded indentation is at least the current
indentation; the stack top is the last list element, as in the Python list. -/
def popIndent (st : List (String × Nat)) (ind : Nat) : List (String × Nat) :=
  (st.reverse.dropWhile (fun p => ind ≤ p.2)).reverse

/-- Dot-join of the open segment chain. -/
def joinPath (st : List (String × Nat)) : String :=
  String.intercalate "." (st.map Prod.fst)

/-- Record a key at a line unless the key is already present (first
occurrence wins, later re-declarations are ignored). -/
def insertKey (keys : List (String × Nat)) (k : String) (ln : Nat) : List (String × Nat) :=
  if (keys.lookup k).isSome then keys else keys ++ [(k, ln)]

/-- Add to the category set unless already present. -/
def insertCat (cats : List String) (k : String) : List String :=
  if cats.contains k then cats else cats ++ [k]

/-- Extraction state: indentation stack, declaration table, category set. -/
structure ExSt where
  stack : List (String × Nat)
  keys : List (String × Nat)
  cats : List String
deriving DecidableEq, Repr

/-- Process one sorted match, exactly as the per-match loop body does:
measure the indentation of the match line in the original line array, pop
the stack, then record a category or a leaf. -/
def stepDecl (lines : List (List Char)) (st : ExSt) (d : Decl) : ExSt :=
  let curLine := lines.getD (d.line - 1) []
  let ind := indentOf curLine
  let stack1 := popIndent st.stack ind
  if d.isCat then
    let stack2 := stack1 ++ [(d.key, ind)]
    let full := joinPath stack2
    { stack := stack2
      keys := insertKey st.keys full d.line
      cats := insertCat st.cats full }
  else
    let full := joinPath (stack1 ++ [(d.key, ind)])
    { stack := stack1
      keys := insertKey st.keys full d.line
      cats := st.cats }

/-- Process a match list in order. -/
def processDecls (lines : List (List Char)) (st : ExSt) : List Decl → ExSt
  | [] => st
  | d :: t => processDecls lines (stepDecl lines st d) t

/-- extract_keys_from_locale on a file content: split the original lines,
strip comments, run both pattern passes, sort, and fold. -/
def extractLocale (cs : List Char) : List (String × Nat) × List String :=
  let lines := splitNl cs
  let stripped := stripComments cs
  let final := processDecls lines ⟨[], [], []⟩ (allDeclMatches quoteDelim stripped)
  (final.keys, final.cats)

/-- extract_keys_from_types on a file content: same state machine with the
type-leaf delimiter; the category set is tracked but not returned. -/
def extractTypes (cs : List Char) : List (String × Nat) :=
  let lines := splitNl cs
  let stripped := stripComments cs
  (processDecls lines ⟨[], [], []⟩ (allDeclMatches typesDelim stripped)).keys

/-- Warning text surfaced when a declaration file is missing. -/
def missingWarn : String := "Warning: file not found"

/-- extract_keys_from_locale including the missing-file guard: a missing file
(modelled as none) yields empty tables plus a warning, and no fault. -/
def extractLocaleFile : Option (List Char) → (List (String × Nat) × List String) × List String
  | none => (([], []), [missingWarn])
  | some cs => (extractLocale cs, [])

/-- extract_keys_from_types including the missing-file guard. -/
def extractTypesFile : Option (List Char) → List (String × Nat) × List String
  | none => ([], [missingWarn])
  | some cs => (extractTypes cs, [])

/-! Reference scanner (find_all_i18n_calls / find_i18n_usage).

The translation-call pattern reads: a lookbehind requiring no word
character before the t, the literal t and open parenthesis, optional
whitespace, a quote, the key, a quote, then the lazy tail.  The tail of
the pattern — optional whitespace, an optional comma group with a lazy
DOTALL body, optional whitespace, close parenthesis — resolves
deterministically: after the maximal whitespace run, a close parenthesis
ends the match; a comma ends it at the first close parenthesis at least
two characters past the comma; anything else fails. -/

/-- Match the pattern tail after the closing quote of the key: returns the
number of characters consumed. -/
def tailLen (cs : List Char) : Option Nat :=
  let w := (cs.takeWhile isSpaceCh).length
  match cs.drop w with
  | ')' :: _ => some (w + 1)
  | ',' :: r =>
    match r with
    | [] => none
    | _ :: r2 =>
      match r2.findIdx? (fun c => c = ')') with
      | some j => some (w + 2 + j + 1)
      | none => none
  | _ => none

/-- Try the global call pattern at a position (lookbehind not included):
returns the key characters and the total match length. -/
def tryCall (cs : List Char) : Option (List Char × Nat) :=
  if startsList ['t', '('] cs then
    let r1 := cs.drop 2
    let w := (r1.takeWhile isSpaceCh).length
    match r1.drop w with
    | q :: r2 =>
      if isQuoteCh q then
        let key := r2.takeWhile isKeyCh
        if key.isEmpty then none
        else
          match r2.drop key.length with
          | q2 :: r3 =>
            if isQuoteCh q2 then
              match tailLen r3 with
              | some t => some (key, 2 + w + 1 + key.length + 1 + t)
              | none => none
            else none
          | [] => none
      else none
    | [] => none
  else none

/-- Try the per-key call pattern for a fixed escaped key at a position. -/
def tryCallK (key : List Char) (cs : List Char) : Option Nat :=
  if startsList ['t', '('] cs then
    let r1 := cs.drop 2
    let w := (r1.takeWhile isSpaceCh).length
    match r1.drop w with
    | q :: r2 =>
      if isQuoteCh q then
        if startsList key r2 then
          match r2.drop key.length with
          | q2 :: r3 =>
            if isQuoteCh q2 then
              match tailLen r3 with
              | some t => some (2 + w + 1 + key.length + 1 + t)
              | none => none
            else none
          | [] => none
        else none
      else none
    | [] => none
  else none

/-- One finditer pass of the global call pattern: non-overlapping matches in
text order, with the negative lookbehind carried as the word-character
status of the previous character; the skip counter walks through the tail
of a match so that the status is recomputed from the actual characters. -/
def scanCalls : List Char → Nat → Bool → Nat → List (Nat × String)
  | [], _, _, _ => []
  | c :: rest, pos, _, Nat.succ sk => scanCalls rest (pos + 1) (isWordCh c) sk
  | c :: rest, pos, prevW, 0 =>
    if prevW then scanCalls rest (pos + 1) (isWordCh c) 0
    else
      match tryCall (c :: rest) with
      | some (k, len) => (pos, String.mk k) :: scanCalls rest (pos + 1) (isWordCh c) (len - 1)
      | none => scanCalls rest (pos + 1) (isWordCh c) 0

/-- One finditer pass of the per-key call pattern. -/
def scanKey (key : List Char) : List Char → Nat → Bool → Nat → List Nat
  | [], _, _, _ => []
  | c :: rest, pos, _, Nat.succ sk => scanKey key rest (pos + 1) (isWordCh c) sk
  | c :: rest, pos, prevW, 0 =>
    if prevW then scanKey key rest (pos + 1) (isWordCh c) 0
    else
      match tryCallK key (c :: rest) with
      | some len => pos :: scanKey key rest (pos + 1) (isWordCh c) (len - 1)
      | none => scanKey key rest (pos + 1) (isWordCh c) 0

/-- All global-pattern matches of a buffer. -/
def callsOf (cs : List Char) : List (Nat × String) :=
  scanCalls cs 0 false 0

/-- All per-key-pattern matches of a buffer. -/
def usesOf (key : String) (cs : List Char) : List Nat :=
  scanKey key.data cs 0 false 0

/-- Try the labelKey pattern at a position: the literal property name,
optional whitespace, a colon, optional whitespace, and a quoted key. -/
def tryLabel (cs : List Char) : Option (List Char × Nat) :=
  if startsList ['l', 'a', 'b', 'e', 'l', 'K', 'e', 'y'] cs then
    let r1 := cs.drop 8
    let w0 := (r1.takeWhile isSpaceCh).length
    match r1.drop w0 with
    | ':' :: r2 =>
      let w1 := (r2.takeWhile isSpaceCh).length
      match r2.drop w1 with
      | q :: r3 =>
        if isQuoteCh q then
          let key := r3.takeWhile isKeyCh
          if key.isEmpty then none
          else
            match r3.drop key.length with
            | q2 :: _ =>
              if isQuoteCh q2 then
                some (key, 8 + w0 + 1 + w1 + 1 + key.length + 1)
              else none
            | [] => none
        else none
      | [] => none
    | _ => none
  else none

/-- One finditer pass of the labelKey pattern (no anchor, no lookbehind). -/
def scanLabel : List Char → Nat → Nat → List (Nat × String)
  | [], _, _ => []
  | _ :: rest, pos, Nat.succ sk => scanLabel rest (pos + 1) sk
  | c :: rest, pos, 0 =>
    match tryLabel (c :: rest) with
    | some (k, len) => (pos, String.mk k) :: scanLabel rest (pos + 1) (len - 1)
    | none => scanLabel rest (pos + 1) 0

/-- All labelKey matches of a buffer. -/
def labelsOf (cs : List Char) : List (Nat × String) :=
  scanLabel cs 0 0

/-! Source-tree traversal and the two usage-collection functions.

A source tree is a list of (relative path, raw content) pairs, in
traversal order.  Both scanners walk the same extension list in the same
order, skip any path containing the i18n directory segment, strip
comments, and compute line numbers in the stripped buffer. -/

/-- Substring test on paths. -/
def hasSub (pat : List Char) : List Char → Bool
  | [] => startsList pat []
  | c :: rest => startsList pat (c :: rest) || hasSub pat rest

/-- Suffix test on paths, for the extension allow-list. -/
def endsList (pat : List Char) (cs : List Char) : Bool :=
  startsList pat.reverse cs.reverse

/-- The extension allow-list, in the order both scanners iterate it. -/
def extList : List String := [".vue", ".ts", ".tsx", ".js", ".jsx"]

/-- The files both scanners visit, in visiting order: extension-major, tree
order within one extension, i18n paths skipped. -/
def scanFiles (tree : List (String × List Char)) : List (String × List Char) :=
  concatMap
    (fun ext => tree.filter
      (fun f => endsList ext.data f.1.data && !hasSub "i18n/".data f.1.data))
    extList

/-- find_i18n_usage: per-key scan of the whole tree, returning
(path, line) records in scan order. -/
def findUsage (key : String) (tree : List (String × List Char)) : List (String × Nat) :=
  concatMap
    (fun f =>
      let stripped := stripComments f.2
      (usesOf key stripped).map (fun p => (f.1, lineNumAt stripped p)))
    (scanFiles tree)

/-- The flat (key, record) stream of the global scan, in match order. -/
def directCalls (tree : List (String × List Char)) : List (String × String × Nat) :=
  concatMap
    (fun f =>
      let stripped := stripComments f.2
      (callsOf stripped).map (fun m => (m.2, f.1, lineNumAt stripped m.1)))
    (scanFiles tree)

/-- Append one usage record under its key, creating the entry on first use —
the dict building of the Python loop, insertion order preserved. -/
def addCall : List (String × List (String × Nat)) → String × String × Nat →
    List (String × List (String × Nat))
  | [], e => [(e.1, [e.2])]
  | (k, locs) :: t, e =>
    if k = e.1 then (k, locs ++ [e.2]) :: t else (k, locs) :: addCall t e

/-- Build a usage index from a record stream. -/
def buildIdx (l : List (String × String × Nat)) : List (String × List (String × Nat)) :=
  l.foldl addCall []

/-- The fixed allow-list of indirect-usage (labelKey) files. -/
def specialFiles : List String :=
  ["composables/rules/useRuleOptions.ts", "composables/filter/useFilterFields.ts"]

/-- Content of a tree path, none when the file does not exist. -/
def lookupFile (tree : List (String × List Char)) (path : String) : Option (List Char) :=
  tree.lookup path

/-- extract_label_keys_from_file on one special file: labelKey matches of the
comment-stripped content, as (key, path, line) records. -/
def labelCalls (tree : List (String × List Char)) (path : String) : List (String × String × Nat) :=
  match lookupFile tree path with
  | none => []
  | some cs =>
    let stripped := stripComments cs
    (labelsOf stripped).map (fun m => (m.2, path, lineNumAt stripped m.1))

/-- All indirect-usage records of the special files, in allow-list order. -/
def labelPairs (tree : List (String × List Char)) : List (String × String × Nat) :=
  concatMap (labelCalls tree) specialFiles

/-- find_all_i18n_calls: the global index, direct calls first, then the
merged labelKey records of the special files. -/
def findAllCalls (tree : List (String × List Char)) : List (String × List (String × Nat)) :=
  (labelPairs tree).foldl addCall (buildIdx (directCalls tree))

/-- Records stored under one key of an index, empty when the key is absent. -/
def callsFor (idx : List (String × List (String × Nat))) (k : String) : List (String × Nat) :=
  (idx.lookup k).getD []

/-- The indirect-usage key set used by unused-key detection. -/
def labelKeySet (tree : List (String × List Char)) : List String :=
  (labelPairs tree).map Prod.fst

/-! Reconciler (the set computations of main). -/

/-- Reconciliation outputs of one run. -/
structure Analysis where
  enKeys : List (String × Nat)
  enCats : List String
  zhKeys : List (String × Nat)
  zhCats : List String
  tyKeys : List (String × Nat)
  allCats : List String
  allKeys : List String
  filtered : List String
  callKeys : List String
  missing : List String
  labelSet : List String
  unused : List String
deriving Repr

/-- The reconciliation pipeline of main(): extract the three declaration
tables, union categories, form the all-keys list, filter categories out,
build the global usage index, take the missing-key difference, and collect
unused keys by the per-key rescan.  Set formation in the Python code is
modelled by duplicate-free lists; sorting is omitted as it only permutes
report order. -/
def analyze (en zh ty : Option (List Char)) (tree : List (String × List Char)) : Analysis :=
  let enR := (extractLocaleFile en).1
  let zhR := (extractLocaleFile zh).1
  let tyR := (extractTypesFile ty).1
  let allCats := enR.2 ++ zhR.2
  let allKeys := (enR.1.map Prod.fst ++ zhR.1.map Prod.fst ++ tyR.map Prod.fst).dedup
  let filtered := allKeys.filter (fun k => !allCats.contains k)
  let idx := findAllCalls tree
  let callKeys := idx.map Prod.fst
  let missing := callKeys.filter (fun k => !allKeys.contains k)
  let labelSet := labelKeySet tree
  let unused := filtered.foldl
    (fun acc k =>
      if (findUsage k tree).isEmpty && !labelSet.contains k then acc ++ [k] else acc)
    []
  { enKeys := enR.1, enCats := enR.2, zhKeys := zhR.1, zhCats := zhR.2
    tyKeys := tyR, allCats := allCats, allKeys := allKeys, filtered := filtered
    callKeys := callKeys, missing := missing, labelSet := labelSet, unused := unused }

/-! Specification-side predicates used by the theorems. -/

/-- Well-formed indentation stack: recorded indentations strictly increase
from the bottom of the stack to the top. -/
def StackOK (st : List (String × Nat)) : Prop :=
  st.Pairwise (fun a b => a.2 < b.2)

/-- Word-character status of the character before a position, the negative
lookbehind of the call pattern; false at the start of the buffer. -/
def wordBefore (cs : List Char) : Nat → Bool
  | 0 => false
  | q + 1 => isWordCh (cs.getD q ' ')

/-- A position at which the global call pattern matches and the lookbehind
allows a match. -/
def goodAt (cs : List Char) (p : Nat) : Prop :=
  wordBefore cs p = false ∧ (tryCall (cs.drop p)).isSome = true

/-- Length of the match starting at a position. -/
def extLen (cs : List Char) (p : Nat) : Nat :=
  match tryCall (cs.drop p) with
  | some (_, n) => n
  | none => 0

/-- The text regions of the recognized call matches are pairwise disjoint. -/
def DisjointCalls (cs : List Char) : Prop :=
  ∀ p, p < cs.length → ∀ q, q < cs.length → p < q →
    goodAt cs p → goodAt cs q → p + extLen cs p ≤ q

instance (cs : List Char) (p : Nat) : Decidable (goodAt cs p) := by
  unfold goodAt
  infer_instance

instance (cs : List Char) : Decidable (DisjointCalls cs) := by
  unfold DisjointCalls
  infer_instance

/-- A key over the valid key character class. -/
def validKey (k : List Char) : Bool :=
  !k.isEmpty && k.all isKeyCh

/-- All match positions of the global call pattern from a position on,
lookbehind respected, overlap ignored. -/
def goodsFrom (cs : List Char) (pos : Nat) : List (Nat × String) :=
  if _h : pos < cs.length then
    match tryCall (cs.drop pos) with
    | some (k, _) =>
      if wordBefore cs pos then goodsFrom cs (pos + 1)
      else (pos, String.mk k) :: goodsFrom cs (pos + 1)
    | none => goodsFrom cs (pos + 1)
  else []
termination_by cs.length - pos

/-- All match positions of the per-key call pattern from a position on. -/
def goodsFromK (key : List Char) (cs : List Char) (pos : Nat) : List Nat :=
  if _h : pos < cs.length then
    match tryCallK key (cs.drop pos) with
    | some _ =>
      if wordBefore cs pos then goodsFromK key cs (pos + 1)
      else pos :: goodsFromK key cs (pos + 1)
    | none => goodsFromK key cs (pos + 1)
  else []
termination_by cs.length - pos

/-! Concrete inputs referenced by the theorems. -/

/-- The indentation example of the specification: a at indent 0, b at
indent 2, c at indent 4, d at indent 2, then a leaf e under d. -/
def exIndent : List Char :=
  "a: \x7b\n  b: \x7b\n    c: \x27x\x27\n  d: \x7b\n    e: \x27y\x27".data

/-- A buffer declaring the same path twice, at lines 1 and 3. -/
def exDup : List Char :=
  "a: \x27x\x27\nb: \x27y\x27\na: \x27z\x27".data

/-- A two-line buffer whose block comment spans the line break. -/
def exBlock : List Char :=
  "a/*\n*/b: \x27v\x27".data

/-- Locale content declaring the key a only as a category. -/
def enOnlyCat : List Char :=
  "a: \x7b".data

/-- A tree whose single file references the key a. -/
def treeUseA : List (String × List Char) :=
  [("f.ts", "t(\x27a\x27)".data)]

/-- A tree with one call nested in the argument list of another. -/
def treeNested : List (String × List Char) :=
  [("a.ts", "t(\x27x\x27, t(\x27y\x27))".data)]

/-- A tree with one plain call, disjoint matches, no special files. -/
def treePlain : List (String × List Char) :=
  [("a.ts", "t(\x27k\x27)".data)]

/-- Locale content declaring the leaf foo.baz under the category foo. -/
def exFooBaz : List Char :=
  "foo: \x7b\n  baz: \x27v\x27".data

/-! Helper lemmas. -/

theorem lookup_append_some {β : Type} (l l2 : List (String × β)) (k : String) (v : β)
    (h : l.lookup k = some v) : (l ++ l2).lookup k = some v := by
  induction l with
  | nil => simp [List.lookup] at h
  | cons a t ih =>
    simp only [List.lookup, List.cons_append] at h ⊢
    split at h
    · simpa using h
    · simp_all [List.lookup]

theorem lookup_append_new {β : Type} (l : List (String × β)) (k : String) (v : β)
    (h : l.lookup k = none) : (l ++ [(k, v)]).lookup k = some v := by
  induction l with
  | nil => simp [List.lookup]
  | cons a t ih =>
    simp only [List.lookup, List.cons_append] at h ⊢
    split at h
    · exact absurd h (by simp)
    · simp_all [List.lookup]

theorem insertKey_lookup_some (keys : List (String × Nat)) (k full : String) (ln v : Nat)
    (h : keys.lookup k = some v) : (insertKey keys full ln).lookup k = some v := by
  unfold insertKey
  split
  · exact h
  · exact lookup_append_some keys [(full, ln)] k v h

theorem insertKey_self_isSome (keys : List (String × Nat)) (k : String) (ln : Nat) :
    ((insertKey keys k ln).lookup k).isSome = true := by
  unfold insertKey
  split
  · assumption
  · rename_i h
    rw [lookup_append_new keys k ln (by cases he : keys.lookup k with
        | none => rfl
        | some v => rw [he] at h; simp at h)]
    rfl

theorem insertKey_lookup_isSome (keys : List (String × Nat)) (k full : String) (ln : Nat)
    (h : (keys.lookup k).isSome = true) :
    ((insertKey keys full ln).lookup k).isSome = true := by
  cases he : keys.lookup k with
  | none => rw [he] at h; simp at h
  | some v => rw [insertKey_lookup_some keys k full ln v he]; rfl

theorem mem_accum (p : String → Bool) (l : List String) :
    ∀ (acc : List String) (k : String),
      k ∈ l.foldl (fun a x => if p x then a ++ [x] else a) acc ↔
        k ∈ acc ∨ (k ∈ l ∧ p k = true) := by
  induction l with
  | nil => simp
  | cons x t ih =>
    intro acc k
    simp only [List.foldl_cons]
    rw [ih]
    by_cases hx : p x = true
    · rw [if_pos hx]
      by_cases hk : k = x
      · subst hk
        simp [hx]
      · simp only [List.mem_append, List.mem_singleton, List.mem_cons, hk]
        tauto
    · rw [if_neg hx]
      by_cases hk : k = x
      · subst hk
        simp [hx]
      · simp [hk]

theorem dropWhile_snd_lt (ind : Nat) :
    ∀ (l : List (String × Nat)), l.Pairwise (fun a b => b.2 < a.2) →
      ∀ e ∈ l.dropWhile (fun p => decide (ind ≤ p.2)), e.2 < ind := by
  intro l
  induction l with
  | nil => simp
  | cons a t ih =>
    intro hp e he
    rw [List.pairwise_cons] at hp
    rw [List.dropWhile_cons] at he
    by_cases ha : ind ≤ a.2
    · rw [if_pos (by simpa using ha)] at he
      exact ih hp.2 e he
    · rw [if_neg (by simpa using ha)] at he
      rcases List.mem_cons.mp he with rfl | het
      · omega
      · have := hp.1 e het
        omega

theorem popIndent_lt {st : List (String × Nat)} {ind : Nat} (h : StackOK st) :
    ∀ e ∈ popIndent st ind, e.2 < ind := by
  intro e he
  unfold popIndent at he
  rw [List.mem_reverse] at he
  refine dropWhile_snd_lt ind st.reverse ?_ e he
  rw [List.pairwise_reverse]
  exact h

theorem popIndent_ok {st : List (String × Nat)} {ind : Nat} (h : StackOK st) :
    StackOK (popIndent st ind) := by
  unfold StackOK at h ⊢
  have hs : List.Sublist (popIndent st ind) st := by
    unfold popIndent
    have hdw : List.Sublist (st.reverse.dropWhile (fun p => decide (ind ≤ p.2))) st.reverse :=
      List.dropWhile_sublist _
    simpa using hdw.reverse
  exact h.sublist hs

theorem stepDecl_stackOK (lines : List (List Char)) (st : ExSt) (d : Decl)
    (h : StackOK st.stack) : StackOK (stepDecl lines st d).stack := by
  unfold stepDecl
  split
  · show StackOK (popIndent st.stack _ ++ [(d.key, _)])
    unfold StackOK
    rw [List.pairwise_append]
    refine ⟨popIndent_ok h, by simp, ?_⟩
    intro a ha b hb
    rw [List.mem_singleton] at hb
    subst hb
    exact popIndent_lt h a ha
  · exact popIndent_ok h

theorem processDecls_stackOK (lines : List (List Char)) (ds : List Decl) :
    ∀ (st : ExSt), StackOK st.stack → StackOK (processDecls lines st ds).stack := by
  induction ds with
  | nil => intro st h; exact h
  | cons d t ih =>
    intro st h
    exact ih (stepDecl lines st d) (stepDecl_stackOK lines st d h)

theorem processDecls_lookup_mono (lines : List (List Char)) (ds : List Decl) :
    ∀ (st : ExSt) (k : String) (v : Nat), st.keys.lookup k = some v →
      (processDecls lines st ds).keys.lookup k = some v := by
  induction ds with
  | nil => intro st k v h; exact h
  | cons d t ih =>
    intro st k v h
    refine ih (stepDecl lines st d) k v ?_
    unfold stepDecl
    split
    · exact insertKey_lookup_some st.keys k _ d.line v h
    · exact insertKey_lookup_some st.keys k _ d.line v h

theorem stepDecl_cats_keys (lines : List (List Char)) (st : ExSt) (d : Decl)
    (h : ∀ k ∈ st.cats, (st.keys.lookup k).isSome = true) :
    ∀ k ∈ (stepDecl lines st d).cats,
      ((stepDecl lines st d).keys.lookup k).isSome = true := by
  intro k hk
  unfold stepDecl at hk ⊢
  by_cases hc : d.isCat = true
  · rw [if_pos hc] at hk ⊢
    simp only at hk ⊢
    unfold insertCat at hk
    split at hk
    · exact insertKey_lookup_isSome st.keys k _ d.line (h k hk)
    · rcases List.mem_append.mp hk with hk1 | hk2
      · exact insertKey_lookup_isSome st.keys k _ d.line (h k hk1)
      · rw [List.mem_singleton] at hk2
        subst hk2
        exact insertKey_self_isSome st.keys _ d.line
  · rw [if_neg hc] at hk ⊢
    simp only at hk ⊢
    exact insertKey_lookup_isSome st.keys k _ d.line (h k hk)

theorem processDecls_cats_keys (lines : List (List Char)) (ds : List Decl) :
    ∀ (st : ExSt), (∀ k ∈ st.cats, (st.keys.lookup k).isSome = true) →
      ∀ k ∈ (processDecls lines st ds).cats,
        ((processDecls lines st ds).keys.lookup k).isSome = true := by
  induction ds with
  | nil => intro st h; exact h
  | cons d t ih =>
    intro st h
    exact ih (stepDecl lines st d) (stepDecl_cats_keys lines st d h)

/-! Claim theorems. -/

/-- C1: before each matched declaration is processed, every indentation-stack
entry with recorded indentation at least the match indentation is popped
(stated for well-formed stacks, and the extraction stack is always
well-formed); consequently, on the example with a at indent 0, b at
indent 2, c at indent 4 and d at indent 2, the keys under d get the path
prefix a.d, not a.b.d. -/
theorem spec_C1 :
    (∀ (st : List (String × Nat)) (ind : Nat), StackOK st →
      ∀ e ∈ popIndent st ind, e.2 < ind) ∧
    (∀ (lines : List (List Char)) (ds : List Decl),
      StackOK (processDecls lines ⟨[], [], []⟩ ds).stack) ∧
    extractLocale exIndent =
      ([("a", 1), ("a.b", 2), ("a.b.c", 3), ("a.d", 4), ("a.d.e", 5)],
        ["a", "a.b", "a.d"]) ∧
    (extractLocale exIndent).1.lookup "a.b.d.e" = none := by
  refine ⟨fun st ind h => popIndent_lt h, ?_, by decide, by decide⟩
  intro lines ds
  exact processDecls_stackOK lines ds ⟨[], [], []⟩ (by simp [StackOK])

/-- Witness for C1 at a concrete stack: the entry at indentation 2 does not
survive popping to indentation 2. -/
theorem spec_C1_witness : ("b", 2) ∉ popIndent [("a", 0), ("b", 2)] 2 := by
  intro h
  have := spec_C1.1 [("a", 0), ("b", 2)] 2 (by simp [StackOK]) ("b", 2) h
  omega

/-- C2 is wrong about the code: the block-comment form of the stripper
deletes the newline characters inside a multi-line block comment, so the
stripped buffer of the two-line input exBlock has one line. -/
theorem spec_C2_bug :
    lineCount exBlock = 2 ∧
    lineCount (stripComments exBlock) = 1 ∧
    stripComments exBlock = "ab: \x27v\x27".data := by
  refine ⟨by decide, by decide, by decide⟩

/-- C6: within one artifact, a re-declared path keeps its first line number:
once a key is stored, processing further matches never changes its stored
value, and on the concrete buffer declaring a at lines 1 and 3, the table
stores line 1. -/
theorem spec_C6 :
    (∀ (lines : List (List Char)) (ds : List Decl) (st : ExSt) (k : String) (v : Nat),
      st.keys.lookup k = some v →
      (processDecls lines st ds).keys.lookup k = some v) ∧
    (extractLocale exDup).1.lookup "a" = some 1 ∧
    (extractLocale exDup).1 = [("a", 1), ("b", 2)] := by
  exact ⟨fun lines ds st k v h => processDecls_lookup_mono lines ds st k v h,
    by decide, by decide⟩

/-- Witness for C6: a stored binding survives the processing of a later
re-declaration of the same key. -/
theorem spec_C6_witness :
    (processDecls [[]] ⟨[], [("a", 1)], []⟩ [Decl.mk 0 3 "a" false]).keys.lookup "a"
      = some 1 :=
  spec_C6.1 [[]] [Decl.mk 0 3 "a" false] ⟨[], [("a", 1)], []⟩ "a" 1 (by decide)

/-- C9: a missing declaration or type file yields empty tables and a warning
and no fault (the embedded extractors are total functions), and the
downstream reconciliation of a missing artifact equals that of an artifact
contributing no keys. -/
theorem spec_C9 :
    extractLocaleFile none = (([], []), [missingWarn]) ∧
    extractTypesFile none = ([], [missingWarn]) ∧
    (∀ zh ty tree, analyze none zh ty tree = analyze (some []) zh ty tree) ∧
    (∀ en zh tree, analyze en zh none tree = analyze en zh (some []) tree) :=
  ⟨rfl, rfl, fun _ _ _ => rfl, fun _ _ _ => rfl⟩

/-- C10: every key in the category set of a locale extraction also has a
recorded line number in its declaration table. -/
theorem spec_C10 (cs : List Char) (k : String) (h : k ∈ (extractLocale cs).2) :
    ((extractLocale cs).1.lookup k).isSome = true := by
  unfold extractLocale at h ⊢
  exact processDecls_cats_keys _ _ ⟨[], [], []⟩ (by simp) k h

/-- Witness for C10 at the category-only locale content. -/
theorem spec_C10_witness : ((extractLocale enOnlyCat).1.lookup "a").isSome = true :=
  spec_C10 enOnlyCat "a" (by decide)

/-! Reconciler claims. -/

theorem lookup_isSome_mem {β : Type} (l : List (String × β)) (k : String)
    (h : (l.lookup k).isSome = true) : k ∈ l.map Prod.fst := by
  induction l with
  | nil => simp [List.lookup] at h
  | cons a t ih =>
    simp only [List.lookup] at h
    by_cases he : k = a.1
    · simp [he]
    · have hb : (k == a.1) = false := by simpa using he
      rw [hb] at h
      simp only at h
      simp [ih h]

theorem extractLocaleFile_cats_keys (o : Option (List Char)) :
    ∀ k ∈ (extractLocaleFile o).1.2, (((extractLocaleFile o).1.1).lookup k).isSome = true := by
  cases o with
  | none => simp [extractLocaleFile]
  | some cs =>
    intro k hk
    exact processDecls_cats_keys _ _ ⟨[], [], []⟩ (by simp) k hk

theorem analyze_missing_eq (en zh ty : Option (List Char)) (tree : List (String × List Char)) :
    (analyze en zh ty tree).missing =
      ((analyze en zh ty tree).callKeys).filter
        (fun x => !(analyze en zh ty tree).allKeys.contains x) := rfl

theorem analyze_filtered_eq (en zh ty : Option (List Char)) (tree : List (String × List Char)) :
    (analyze en zh ty tree).filtered =
      ((analyze en zh ty tree).allKeys).filter
        (fun x => !(analyze en zh ty tree).allCats.contains x) := rfl

theorem analyze_unused_eq (en zh ty : Option (List Char)) (tree : List (String × List Char)) :
    (analyze en zh ty tree).unused =
      ((analyze en zh ty tree).filtered).foldl
        (fun a x =>
          if (findUsage x tree).isEmpty && !(labelKeySet tree).contains x then a ++ [x] else a)
        [] := rfl

theorem analyze_mem_allKeys (en zh ty : Option (List Char)) (tree : List (String × List Char))
    (k : String) :
    k ∈ (analyze en zh ty tree).allKeys ↔
      k ∈ (extractLocaleFile en).1.1.map Prod.fst ∨
      k ∈ (extractLocaleFile zh).1.1.map Prod.fst ∨
      k ∈ (extractTypesFile ty).1.map Prod.fst := by
  have h : (analyze en zh ty tree).allKeys =
      ((extractLocaleFile en).1.1.map Prod.fst ++ (extractLocaleFile zh).1.1.map Prod.fst ++
        (extractTypesFile ty).1.map Prod.fst).dedup := rfl
  rw [h, List.mem_dedup, List.mem_append, List.mem_append, or_assoc]

/-- C3, amended: the missing-key set is the usage-index key set minus the
union of all declaration-table keys, with the category set not subtracted;
a used key declared only as a category is therefore not reported missing. -/
theorem spec_C3 (en zh ty : Option (List Char)) (tree : List (String × List Char)) (k : String) :
    k ∈ (analyze en zh ty tree).missing ↔
      k ∈ (analyze en zh ty tree).callKeys ∧
        ¬ (k ∈ (extractLocaleFile en).1.1.map Prod.fst ∨
           k ∈ (extractLocaleFile zh).1.1.map Prod.fst ∨
           k ∈ (extractTypesFile ty).1.map Prod.fst) := by
  rw [analyze_missing_eq, List.mem_filter]
  rw [show ((!(analyze en zh ty tree).allKeys.contains k) = true) ↔
      (¬ k ∈ (analyze en zh ty tree).allKeys) from by simp]
  rw [analyze_mem_allKeys]

/-- Counterexample for C3 as frozen: the key a is referenced in the tree and
declared only as a category, yet the missing-key set of the run is empty,
because the code subtracts the unfiltered all-keys union. -/
theorem spec_C3_counterexample :
    "a" ∈ (analyze (some enOnlyCat) (some []) none treeUseA).callKeys ∧
    "a" ∈ (analyze (some enOnlyCat) (some []) none treeUseA).allCats ∧
    "a" ∉ (analyze (some enOnlyCat) (some []) none treeUseA).missing := by
  refine ⟨by decide, by decide, by decide⟩

/-- C4: a key declared as a category in at least one locale artifact is never
in the filtered all-keys list, the missing-key list, or the unused-key
list, whatever the other artifacts declare. -/
theorem spec_C4 (en zh ty : Option (List Char)) (tree : List (String × List Char)) (k : String)
    (h : k ∈ (analyze en zh ty tree).allCats) :
    k ∉ (analyze en zh ty tree).filtered ∧
    k ∉ (analyze en zh ty tree).missing ∧
    k ∉ (analyze en zh ty tree).unused := by
  have hnotf : k ∉ (analyze en zh ty tree).filtered := by
    intro hf
    rw [analyze_filtered_eq, List.mem_filter] at hf
    have := hf.2
    simp only [Bool.not_eq_true'] at this
    rw [show ((analyze en zh ty tree).allCats.contains k = false) ↔
        (¬ k ∈ (analyze en zh ty tree).allCats) from by simp] at this
    exact this h
  refine ⟨hnotf, ?_, ?_⟩
  · intro hm
    rw [spec_C3] at hm
    have hcats : k ∈ (extractLocaleFile en).1.2 ∨ k ∈ (extractLocaleFile zh).1.2 := by
      have ha : (analyze en zh ty tree).allCats =
          (extractLocaleFile en).1.2 ++ (extractLocaleFile zh).1.2 := rfl
      rw [ha, List.mem_append] at h
      exact h
    refine hm.2 ?_
    rcases hcats with hc | hc
    · exact Or.inl (lookup_isSome_mem _ k (extractLocaleFile_cats_keys en k hc))
    · exact Or.inr (Or.inl (lookup_isSome_mem _ k (extractLocaleFile_cats_keys zh k hc)))
  · intro hu
    rw [analyze_unused_eq] at hu
    rw [mem_accum] at hu
    rcases hu with hu | hu
    · simp at hu
    · exact hnotf hu.1

/-- Witness for C4 at the category-only locale content and a tree using it. -/
theorem spec_C4_witness :
    "a" ∉ (analyze (some enOnlyCat) (some []) none treeUseA).filtered ∧
    "a" ∉ (analyze (some enOnlyCat) (some []) none treeUseA).missing ∧
    "a" ∉ (analyze (some enOnlyCat) (some []) none treeUseA).unused :=
  spec_C4 (some enOnlyCat) (some []) none treeUseA "a" (by decide)

/-- C5: a key of the filtered all-keys list is reported unused exactly when
its per-key rescan of the tree finds nothing and it is not in the
indirect-usage key set. -/
theorem spec_C5 (en zh ty : Option (List Char)) (tree : List (String × List Char)) (k : String)
    (h : k ∈ (analyze en zh ty tree).filtered) :
    k ∈ (analyze en zh ty tree).unused ↔
      findUsage k tree = [] ∧ k ∉ labelKeySet tree := by
  rw [analyze_unused_eq, mem_accum]
  simp [h, List.isEmpty_iff]

/-- Witness for C5: the declared leaf foo.baz with no usages and no indirect
references is unused. -/
theorem spec_C5_witness :
    "foo.baz" ∈ (analyze (some exFooBaz) none none []).unused ↔
      findUsage "foo.baz" [] = [] ∧ "foo.baz" ∉ labelKeySet [] :=
  spec_C5 (some exFooBaz) none none [] "foo.baz" (by decide)

theorem tryCall_key_valid (cs : List Char) (k : List Char) (n : Nat)
    (h : tryCall cs = some (k, n)) : validKey k = true := by
  simp only [tryCall] at h
  split at h
  · split at h
    · split at h
      · split at h
        · exact absurd h (by simp)
        · split at h
          · split at h
            · split at h
              · injection h with hp
                rw [Prod.mk.injEq] at hp
                obtain ⟨hk, -⟩ := hp
                subst hk
                unfold validKey
                rw [Bool.and_eq_true]
                constructor
                · rw [Bool.not_eq_true']
                  rw [← Bool.not_eq_true]
                  assumption
                · rw [List.all_eq_true]
                  intro c hc
                  exact List.mem_takeWhile_imp hc
              · exact absurd h (by simp)
            · exact absurd h (by simp)
          · exact absurd h (by simp)
      · exact absurd h (by simp)
    · exact absurd h (by simp)
  · exact absurd h (by simp)

theorem drop_succ_of_drop {α : Type} {cs : List α} {pos : Nat} {c : α} {r : List α}
    (h : cs.drop pos = c :: r) : cs.drop (pos + 1) = r := by
  rw [← List.tail_drop, h]
  rfl

theorem getD_drop_head {α : Type} {cs : List α} {pos : Nat} {c : α} {r : List α} (d : α)
    (h : cs.drop pos = c :: r) : cs.getD pos d = c := by
  rw [List.getD_eq_getElem?_getD]
  have h0 := List.getElem?_drop cs pos 0
  rw [h] at h0
  simp at h0
  rw [← h0]
  rfl

theorem wordBefore_succ {cs : List Char} {pos : Nat} {c : Char} {r : List Char}
    (h : cs.drop pos = c :: r) : wordBefore cs (pos + 1) = isWordCh c := by
  have h0 : wordBefore cs (pos + 1) = isWordCh (cs.getD pos ' ') := rfl
  rw [h0, getD_drop_head ' ' h]

theorem scanCalls_sound (cs : List Char) :
    ∀ (suf : List Char) (pos skip : Nat) (pw : Bool),
      suf = cs.drop pos →
      (skip = 0 → pw = wordBefore cs pos) →
      ∀ p k, (p, k) ∈ scanCalls suf pos pw skip →
        wordBefore cs p = false ∧ validKey k.data = true := by
  intro suf
  induction suf with
  | nil =>
    intro pos skip pw h1 h2 p k hm
    simp [scanCalls] at hm
  | cons c rest ih =>
    intro pos skip pw h1 h2 p k hm
    have hdrop : cs.drop (pos + 1) = rest := drop_succ_of_drop h1.symm
    have hwb : wordBefore cs (pos + 1) = isWordCh c := wordBefore_succ h1.symm
    cases skip with
    | succ sk =>
      simp only [scanCalls] at hm
      exact ih (pos + 1) sk (isWordCh c) hdrop.symm (fun _ => hwb.symm) p k hm
    | zero =>
      simp only [scanCalls] at hm
      by_cases hpw : pw = true
      · rw [if_pos hpw] at hm
        exact ih (pos + 1) 0 (isWordCh c) hdrop.symm (fun _ => hwb.symm) p k hm
      · rw [if_neg hpw] at hm
        cases htc : tryCall (c :: rest) with
        | none =>
          rw [htc] at hm
          exact ih (pos + 1) 0 (isWordCh c) hdrop.symm (fun _ => hwb.symm) p k hm
        | some m =>
          rw [htc] at hm
          obtain ⟨kl, len⟩ := m
          simp only at hm
          rcases List.mem_cons.mp hm with he | ht
          · rw [Prod.mk.injEq] at he
            obtain ⟨hp, hk⟩ := he
            constructor
            · rw [hp]
              have h0 := h2 rfl
              rw [← h0]
              simpa using hpw
            · rw [hk]
              have htc2 : tryCall (cs.drop pos) = some (kl, len) := by
                rw [← h1]; exact htc
              exact tryCall_key_valid (cs.drop pos) kl len htc2
          · exact ih (pos + 1) (len - 1) (isWordCh c) hdrop.symm (fun _ => hwb.symm) p k ht

/-- C7: the reference scanner records a usage only for calls of the
standalone identifier t with a key over the valid character class: every
recorded match site has no word character before the t, every recorded key
is over the class, and the createElement and closest shapes yield no
records. -/
theorem spec_C7 :
    (∀ (cs : List Char) (p : Nat) (k : String), (p, k) ∈ callsOf cs →
      wordBefore cs p = false ∧ validKey k.data = true) ∧
    callsOf "createElement(\x27x\x27)".data = [] ∧
    callsOf "el.closest(\x27x\x27)".data = [] := by
  refine ⟨?_, by decide, by decide⟩
  intro cs p k h
  exact scanCalls_sound cs cs 0 0 false (by simp) (fun _ => rfl) p k h

/-- Witness for C7 at a recorded call of a plain buffer. -/
theorem spec_C7_witness :
    wordBefore "t(\x27a\x27)".data 0 = false ∧ validKey ("a" : String).data = true :=
  spec_C7.1 "t(\x27a\x27)".data 0 "a" (by decide)

theorem tryCall_len_pos (cs : List Char) (k : List Char) (n : Nat)
    (h : tryCall cs = some (k, n)) : 1 ≤ n := by
  simp only [tryCall] at h
  split at h
  · split at h
    · split at h
      · split at h
        · exact absurd h (by simp)
        · split at h
          · split at h
            · split at h
              · injection h with hp
                rw [Prod.mk.injEq] at hp
                obtain ⟨-, hn⟩ := hp
                omega
              · exact absurd h (by simp)
            · exact absurd h (by simp)
          · exact absurd h (by simp)
      · exact absurd h (by simp)
    · exact absurd h (by simp)
  · exact absurd h (by simp)

theorem goodAt_lt_length {cs : List Char} {q : Nat} (h : goodAt cs q) : q < cs.length := by
  by_contra hq
  push_neg at hq
  have hd : cs.drop q = [] := by
    rw [List.drop_eq_nil_iff]
    omega
  have h2 := h.2
  rw [hd] at h2
  simp [tryCall] at h2

theorem goodsFrom_stop (cs : List Char) (n : Nat) (h : cs.length ≤ n) : goodsFrom cs n = [] := by
  rw [goodsFrom]
  rw [dif_neg (by omega)]

theorem goodsFrom_not {cs : List Char} {n : Nat} (h : ¬ goodAt cs n) :
    goodsFrom cs n = goodsFrom cs (n + 1) := by
  by_cases hn : n < cs.length
  · rw [goodsFrom, dif_pos hn]
    cases htc : tryCall (cs.drop n) with
    | none => simp only [htc]
    | some m =>
      obtain ⟨kl, len⟩ := m
      have hw : wordBefore cs n = true := by
        by_contra hww
        exact h ⟨by simpa using hww, by rw [htc]; rfl⟩
      simp only [htc, hw, if_true]
  · rw [goodsFrom, dif_neg hn]
    rw [goodsFrom_stop cs (n + 1) (by omega)]

theorem goodsFrom_skip (cs : List Char) :
    ∀ (d a : Nat), (∀ q, a ≤ q → q < a + d → ¬ goodAt cs q) →
      goodsFrom cs a = goodsFrom cs (a + d) := by
  intro d
  induction d with
  | zero => intro a _; rfl
  | succ m ih =>
    intro a h
    rw [goodsFrom_not (h a le_rfl (by omega))]
    have h2 := ih (a + 1) (fun q hq1 hq2 => h q (by omega) (by omega))
    rw [h2]
    congr 1
    omega

theorem goodsFrom_cons {cs : List Char} {n : Nat} {kl : List Char} {len : Nat}
    (hw : wordBefore cs n = false) (htc : tryCall (cs.drop n) = some (kl, len)) :
    goodsFrom cs n = (n, String.mk kl) :: goodsFrom cs (n + 1) := by
  have hn : n < cs.length := goodAt_lt_length ⟨hw, by rw [htc]; rfl⟩
  rw [goodsFrom, dif_pos hn]
  simp only [htc, hw, Bool.false_eq_true, if_false]

theorem scanCalls_goods (cs : List Char) (hd : DisjointCalls cs) :
    ∀ (suf : List Char) (pos skip : Nat) (pw : Bool),
      suf = cs.drop pos →
      (skip = 0 → pw = wordBefore cs pos) →
      (∀ q, pos ≤ q → q < pos + skip → ¬ goodAt cs q) →
      scanCalls suf pos pw skip = goodsFrom cs (pos + skip) := by
  intro suf
  induction suf with
  | nil =>
    intro pos skip pw h1 h2 h3
    have hlen : cs.length ≤ pos := by
      have h4 := h1.symm
      rw [List.drop_eq_nil_iff] at h4
      omega
    rw [goodsFrom_stop cs (pos + skip) (by omega)]
    simp [scanCalls]
  | cons c rest ih =>
    intro pos skip pw h1 h2 h3
    have hdrop : cs.drop (pos + 1) = rest := drop_succ_of_drop h1.symm
    have hwb : wordBefore cs (pos + 1) = isWordCh c := wordBefore_succ h1.symm
    have hposlen : pos < cs.length := by
      by_contra hc
      push_neg at hc
      have h5 : cs.drop pos = [] := by rw [List.drop_eq_nil_iff]; omega
      rw [h5] at h1
      exact absurd h1 (by simp)
    cases skip with
    | succ sk =>
      simp only [scanCalls]
      have ih2 := ih (pos + 1) sk (isWordCh c) hdrop.symm (fun _ => hwb.symm)
        (fun q hq1 hq2 => h3 q (by omega) (by omega))
      rw [ih2]
      congr 1
      omega
    | zero =>
      have hpw := h2 rfl
      simp only [scanCalls]
      by_cases hpwt : pw = true
      · rw [if_pos hpwt]
        have hng : ¬ goodAt cs pos := by
          intro hg
          rw [hg.1] at hpw
          rw [hpw] at hpwt
          exact absurd hpwt (by simp)
        have ih2 := ih (pos + 1) 0 (isWordCh c) hdrop.symm (fun _ => hwb.symm)
          (fun q hq1 hq2 => by omega)
        rw [ih2, Nat.add_zero, ← goodsFrom_not hng]
        rfl
      · rw [if_neg hpwt]
        have hpwf : wordBefore cs pos = false := by
          rw [← hpw]
          simpa using hpwt
        cases htc : tryCall (c :: rest) with
        | none =>
          have hng : ¬ goodAt cs pos := by
            intro hg
            have h6 := hg.2
            rw [← h1, htc] at h6
            simp at h6
          have ih2 := ih (pos + 1) 0 (isWordCh c) hdrop.symm (fun _ => hwb.symm)
            (fun q hq1 hq2 => by omega)
          rw [ih2, Nat.add_zero, ← goodsFrom_not hng]
          rfl
        | some m =>
          obtain ⟨kl, len⟩ := m
          have htc2 : tryCall (cs.drop pos) = some (kl, len) := by rw [← h1]; exact htc
          have hlen1 : 1 ≤ len := tryCall_len_pos _ kl len htc2
          have hgood : goodAt cs pos := ⟨hpwf, by rw [htc2]; rfl⟩
          have hext : extLen cs pos = len := by
            unfold extLen
            rw [htc2]
          have hnr : ∀ q, pos + 1 ≤ q → q < pos + len → ¬ goodAt cs q := by
            intro q hq1 hq2 hgq
            have hql : q < cs.length := goodAt_lt_length hgq
            have h7 := hd pos hposlen q hql (by omega) hgood hgq
            omega
          simp only
          have ih2 := ih (pos + 1) (len - 1) (isWordCh c) hdrop.symm (fun _ => hwb.symm)
            (fun q hq1 hq2 => hnr q (by omega) (by omega))
          rw [ih2]
          show _ = goodsFrom cs pos
          rw [goodsFrom_cons hpwf htc2]
          congr 1
          exact (goodsFrom_skip cs (len - 1) (pos + 1)
            (fun q hq1 hq2 => hnr q (by omega) (by omega))).symm

theorem starts_drop : ∀ (k r2 : List Char), startsList k r2 = true →
    r2 = k ++ r2.drop k.length := by
  intro k
  induction k with
  | nil => intro r2 _; simp
  | cons p ps ih =>
    intro r2 hs
    cases r2 with
    | nil => simp [startsList] at hs
    | cons c cs =>
      simp only [startsList, Bool.and_eq_true] at hs
      obtain ⟨hpc, hrest⟩ := hs
      have hpc2 : p = c := by simpa using hpc
      subst hpc2
      have := ih cs hrest
      simp only [List.length_cons, List.cons_append, List.drop_succ_cons]
      exact congrArg (p :: ·) this

theorem takeWhile_all_append (p : Char → Bool) :
    ∀ (l1 l2 : List Char), (∀ c ∈ l1, p c = true) →
      (l1 ++ l2).takeWhile p = l1 ++ l2.takeWhile p := by
  intro l1
  induction l1 with
  | nil => intro l2 _; simp
  | cons a t ih =>
    intro l2 h
    rw [List.cons_append, List.takeWhile_cons, if_pos (h a (by simp))]
    rw [ih l2 (fun c hc => h c (by simp [hc]))]
    rfl

theorem starts_takeWhile (p : Char → Bool) : ∀ (l : List Char),
    startsList (l.takeWhile p) l = true := by
  intro l
  induction l with
  | nil => rfl
  | cons a t ih =>
    rw [List.takeWhile_cons]
    by_cases ha : p a = true
    · rw [if_pos ha]
      simp [startsList, ih]
    · rw [if_neg ha]
      rfl

theorem isQuoteCh_not_key {c : Char} (h : isQuoteCh c = true) : isKeyCh c = false := by
  unfold isQuoteCh at h
  rcases Bool.or_eq_true _ _ |>.mp h with h1 | h2
  · rcases Bool.or_eq_true _ _ |>.mp h1 with h3 | h4
    · rw [show c = '\x27' from by simpa using h3]; decide
    · rw [show c = '"' from by simpa using h4]; decide
  · rw [show c = '\x60' from by simpa using h2]; decide

theorem tryCallK_iff (k : List Char) (hk : validKey k = true) (cs : List Char) (n : Nat) :
    tryCallK k cs = some n ↔ tryCall cs = some (k, n) := by
  have hval := hk
  unfold validKey at hval
  rw [Bool.and_eq_true] at hval
  have hne : k.isEmpty = false := by simpa using hval.1
  have hall : ∀ c ∈ k, isKeyCh c = true := by
    have h9 := hval.2
    rw [List.all_eq_true] at h9
    exact h9
  unfold tryCall tryCallK
  by_cases h0 : startsList ['t', '('] cs = true
  · rw [if_pos h0, if_pos h0]
    dsimp only
    cases hqr : (cs.drop 2).drop ((cs.drop 2).takeWhile isSpaceCh).length with
    | nil => simp
    | cons q r2 =>
      dsimp only
      by_cases hq : isQuoteCh q = true
      · rw [if_pos hq, if_pos hq]
        by_cases hs : startsList k r2 = true
        · rw [if_pos hs]
          have hdec := starts_drop k r2 hs
          cases hrest : r2.drop k.length with
          | nil =>
            have hr2 : r2 = k := by
              rw [hdec, hrest, List.append_nil]
            have hkey : r2.takeWhile isKeyCh = k := by
              rw [hr2]
              have h8 := takeWhile_all_append isKeyCh k [] hall
              simpa using h8
            simp [hkey, hne, hrest]
          | cons q2 r3 =>
            by_cases hq2 : isQuoteCh q2 = true
            · have hkey : r2.takeWhile isKeyCh = k := by
                conv =>
                  lhs
                  rw [hdec, hrest]
                rw [takeWhile_all_append isKeyCh k (q2 :: r3) hall]
                rw [List.takeWhile_cons, isQuoteCh_not_key hq2]
                simp
              cases htl : tailLen r3 with
              | none => simp [hkey, hne, hrest, hq2, htl]
              | some t => simp [hkey, hne, hrest, hq2, htl]
            · by_cases hkc : isKeyCh q2 = true
              · have hkey : r2.takeWhile isKeyCh = k ++ (q2 :: r3).takeWhile isKeyCh := by
                  conv =>
                    lhs
                    rw [hdec, hrest]
                  rw [takeWhile_all_append isKeyCh k (q2 :: r3) hall]
                have hlen2 : k.length < (r2.takeWhile isKeyCh).length := by
                  rw [hkey, List.length_append, List.takeWhile_cons, if_pos hkc]
                  simp
                constructor
                · intro h
                  split at h
                  · rename_i q2x r3x heq
                    injection heq with he1 he2
                    subst he1
                    rw [if_neg hq2] at h
                    exact absurd h (by simp)
                  · rename_i heq
                    exact absurd heq (by simp)
                · intro h
                  exfalso
                  by_cases hke : (r2.takeWhile isKeyCh).isEmpty = true
                  · rw [if_pos hke] at h
                    exact absurd h (by simp)
                  · rw [if_neg hke] at h
                    split at h
                    · split at h
                      · split at h
                        · injection h with hp
                          rw [Prod.mk.injEq] at hp
                          obtain ⟨hkk, -⟩ := hp
                          rw [hkk] at hlen2
                          omega
                        · exact absurd h (by simp)
                      · exact absurd h (by simp)
                    · exact absurd h (by simp)
              · have hkey : r2.takeWhile isKeyCh = k := by
                  conv =>
                    lhs
                    rw [hdec, hrest]
                  rw [takeWhile_all_append isKeyCh k (q2 :: r3) hall]
                  rw [List.takeWhile_cons, if_neg hkc]
                  simp
                simp [hkey, hne, hrest, hq2]
        · rw [if_neg hs]
          constructor
          · intro h
            exact absurd h (by simp)
          · intro h
            exfalso
            by_cases hke : (r2.takeWhile isKeyCh).isEmpty = true
            · rw [if_pos hke] at h
              exact absurd h (by simp)
            · rw [if_neg hke] at h
              split at h
              · split at h
                · split at h
                  · injection h with hp
                    rw [Prod.mk.injEq] at hp
                    obtain ⟨hkk, -⟩ := hp
                    rw [← hkk] at hs
                    exact hs (starts_takeWhile isKeyCh r2)
                  · exact absurd h (by simp)
                · exact absurd h (by simp)
              · exact absurd h (by simp)
      · rw [if_neg hq, if_neg hq]
        simp
  · rw [if_neg h0, if_neg h0]
    simp

theorem tryCallK_none_of_none {k : List Char} (hk : validKey k = true) {cs : List Char}
    (h : tryCall cs = none) : tryCallK k cs = none := by
  cases hm : tryCallK k cs with
  | none => rfl
  | some m =>
    rw [tryCallK_iff k hk cs m] at hm
    rw [hm] at h
    exact absurd h (by simp)

theorem tryCallK_none_of_other {k kl : List Char} (hk : validKey k = true) {cs : List Char}
    {len : Nat} (h : tryCall cs = some (kl, len)) (hne : kl ≠ k) : tryCallK k cs = none := by
  cases hm : tryCallK k cs with
  | none => rfl
  | some m =>
    rw [tryCallK_iff k hk cs m] at hm
    rw [hm] at h
    injection h with hp
    rw [Prod.mk.injEq] at hp
    exact absurd hp.1.symm hne

theorem goodsFromK_stop (k : List Char) (cs : List Char) (n : Nat) (h : cs.length ≤ n) :
    goodsFromK k cs n = [] := by
  rw [goodsFromK]
  rw [dif_neg (by omega)]

theorem goodsFromK_step_none {k : List Char} {cs : List Char} {n : Nat}
    (h : tryCallK k (cs.drop n) = none) :
    goodsFromK k cs n = goodsFromK k cs (n + 1) := by
  by_cases hn : n < cs.length
  · rw [goodsFromK, dif_pos hn]
    simp only [h]
  · rw [goodsFromK, dif_neg hn, goodsFromK_stop k cs (n + 1) (by omega)]

theorem goodsFromK_step_word {k : List Char} {cs : List Char} {n : Nat}
    (h : wordBefore cs n = true) :
    goodsFromK k cs n = goodsFromK k cs (n + 1) := by
  by_cases hn : n < cs.length
  · rw [goodsFromK, dif_pos hn]
    cases hm : tryCallK k (cs.drop n) with
    | none => simp only [hm]
    | some m => simp only [hm, h, if_true]
  · rw [goodsFromK, dif_neg hn, goodsFromK_stop k cs (n + 1) (by omega)]

theorem goodsFromK_not {k : List Char} (hk : validKey k = true) {cs : List Char} {n : Nat}
    (h : ¬ goodAt cs n) :
    goodsFromK k cs n = goodsFromK k cs (n + 1) := by
  cases hw : wordBefore cs n with
  | true => exact goodsFromK_step_word hw
  | false =>
    cases htc : tryCall (cs.drop n) with
    | none => exact goodsFromK_step_none (tryCallK_none_of_none hk htc)
    | some m =>
      exfalso
      exact h ⟨hw, by rw [htc]; rfl⟩

theorem goodsFromK_skip {k : List Char} (hk : validKey k = true) (cs : List Char) :
    ∀ (d a : Nat), (∀ q, a ≤ q → q < a + d → ¬ goodAt cs q) →
      goodsFromK k cs a = goodsFromK k cs (a + d) := by
  intro d
  induction d with
  | zero => intro a _; rfl
  | succ m ih =>
    intro a h
    rw [goodsFromK_not hk (h a le_rfl (by omega))]
    have h2 := ih (a + 1) (fun q hq1 hq2 => h q (by omega) (by omega))
    rw [h2]
    congr 1
    omega

theorem goodsFromK_cons {k : List Char} {cs : List Char} {n : Nat} {len : Nat}
    (hw : wordBefore cs n = false) (htc : tryCallK k (cs.drop n) = some len)
    (hn : n < cs.length) :
    goodsFromK k cs n = n :: goodsFromK k cs (n + 1) := by
  rw [goodsFromK, dif_pos hn]
  simp only [htc, hw, Bool.false_eq_true, if_false]

theorem goodsFromK_eq {k : List Char} (hk : validKey k = true) (cs : List Char) :
    ∀ (d n : Nat), cs.length - n ≤ d →
      goodsFromK k cs n =
        ((goodsFrom cs n).filter (fun pr => pr.2 = String.mk k)).map Prod.fst := by
  intro d
  induction d with
  | zero =>
    intro n hn
    rw [goodsFromK_stop k cs n (by omega), goodsFrom_stop cs n (by omega)]
    rfl
  | succ m ih =>
    intro n hn
    by_cases hlt : n < cs.length
    · cases htc : tryCall (cs.drop n) with
      | none =>
        have hg : ¬ goodAt cs n := by
          intro hg
          have h2 := hg.2
          rw [htc] at h2
          exact absurd h2 (by simp)
        rw [goodsFromK_step_none (tryCallK_none_of_none hk htc), goodsFrom_not hg]
        exact ih (n + 1) (by omega)
      | some mm =>
        obtain ⟨kl, len⟩ := mm
        cases hw : wordBefore cs n with
        | true =>
          have hg : ¬ goodAt cs n := by
            intro hg
            rw [hg.1] at hw
            exact absurd hw (by simp)
          rw [goodsFromK_step_word hw, goodsFrom_not hg]
          exact ih (n + 1) (by omega)
        | false =>
          rw [goodsFrom_cons hw htc]
          by_cases hkl : kl = k
          · subst hkl
            have htck : tryCallK kl (cs.drop n) = some len := by
              rw [tryCallK_iff kl hk (cs.drop n) len]
              exact htc
            rw [goodsFromK_cons hw htck hlt]
            rw [List.filter_cons]
            simp only [decide_eq_true_eq]
            rw [if_pos trivial]
            rw [List.map_cons]
            exact congrArg (n :: ·) (ih (n + 1) (by omega))
          · rw [goodsFromK_step_none (tryCallK_none_of_other hk htc hkl)]
            rw [List.filter_cons]
            have hne2 : ¬ (String.mk kl = String.mk k) := by
              intro hc
              injection hc with hc2
              exact hkl hc2
            simp only [decide_eq_true_eq]
            rw [if_neg hne2]
            exact ih (n + 1) (by omega)
    · rw [goodsFromK_stop k cs n (by omega), goodsFrom_stop cs n (by omega)]
      rfl

theorem scanKey_goods (k : List Char) (hk : validKey k = true) (cs : List Char)
    (hd : DisjointCalls cs) :
    ∀ (suf : List Char) (pos skip : Nat) (pw : Bool),
      suf = cs.drop pos →
      (skip = 0 → pw = wordBefore cs pos) →
      (∀ q, pos ≤ q → q < pos + skip → ¬ goodAt cs q) →
      scanKey k suf pos pw skip = goodsFromK k cs (pos + skip) := by
  intro suf
  induction suf with
  | nil =>
    intro pos skip pw h1 h2 h3
    have hlen : cs.length ≤ pos := by
      have h4 := h1.symm
      rw [List.drop_eq_nil_iff] at h4
      omega
    rw [goodsFromK_stop k cs (pos + skip) (by omega)]
    simp [scanKey]
  | cons c rest ih =>
    intro pos skip pw h1 h2 h3
    have hdrop : cs.drop (pos + 1) = rest := drop_succ_of_drop h1.symm
    have hwb : wordBefore cs (pos + 1) = isWordCh c := wordBefore_succ h1.symm
    have hposlen : pos < cs.length := by
      by_contra hc
      push_neg at hc
      have h5 : cs.drop pos = [] := by rw [List.drop_eq_nil_iff]; omega
      rw [h5] at h1
      exact absurd h1 (by simp)
    cases skip with
    | succ sk =>
      simp only [scanKey]
      have ih2 := ih (pos + 1) sk (isWordCh c) hdrop.symm (fun _ => hwb.symm)
        (fun q hq1 hq2 => h3 q (by omega) (by omega))
      rw [ih2]
      congr 1
      omega
    | zero =>
      have hpw := h2 rfl
      simp only [scanKey]
      by_cases hpwt : pw = true
      · rw [if_pos hpwt]
        have hwt : wordBefore cs pos = true := by rw [← hpw]; exact hpwt
        have ih2 := ih (pos + 1) 0 (isWordCh c) hdrop.symm (fun _ => hwb.symm)
          (fun q hq1 hq2 => by omega)
        rw [ih2, Nat.add_zero, ← goodsFromK_step_word hwt]
        rfl
      · rw [if_neg hpwt]
        have hpwf : wordBefore cs pos = false := by
          rw [← hpw]
          simpa using hpwt
        cases htc : tryCallK k (c :: rest) with
        | none =>
          have htc2 : tryCallK k (cs.drop pos) = none := by rw [← h1]; exact htc
          have ih2 := ih (pos + 1) 0 (isWordCh c) hdrop.symm (fun _ => hwb.symm)
            (fun q hq1 hq2 => by omega)
          rw [ih2, Nat.add_zero, ← goodsFromK_step_none htc2]
          rfl
        | some len =>
          have htc2 : tryCallK k (cs.drop pos) = some len := by rw [← h1]; exact htc
          have htcg : tryCall (cs.drop pos) = some (k, len) := by
            rw [← tryCallK_iff k hk (cs.drop pos) len]
            exact htc2
          have hlen1 : 1 ≤ len := tryCall_len_pos _ k len htcg
          have hgood : goodAt cs pos := ⟨hpwf, by rw [htcg]; rfl⟩
          have hnr : ∀ q, pos + 1 ≤ q → q < pos + len → ¬ goodAt cs q := by
            intro q hq1 hq2 hgq
            have hql : q < cs.length := goodAt_lt_length hgq
            have h7 := hd pos hposlen q hql (by omega) hgood hgq
            have hext : extLen cs pos = len := by
              unfold extLen
              rw [htcg]
            omega
          simp only
          have ih2 := ih (pos + 1) (len - 1) (isWordCh c) hdrop.symm (fun _ => hwb.symm)
            (fun q hq1 hq2 => hnr q (by omega) (by omega))
          rw [ih2]
          show _ = goodsFromK k cs pos
          rw [goodsFromK_cons hpwf htc2 hposlen]
          congr 1
          exact (goodsFromK_skip hk cs (len - 1) (pos + 1)
            (fun q hq1 hq2 => hnr q (by omega) (by omega))).symm

theorem usesOf_eq_calls (k : String) (cs : List Char) (hk : validKey k.data = true)
    (hd : DisjointCalls cs) :
    usesOf k cs = ((callsOf cs).filter (fun pr => pr.2 = k)).map Prod.fst := by
  unfold usesOf callsOf
  rw [scanKey_goods k.data hk cs hd cs 0 0 false (by simp) (fun _ => rfl)
    (fun q h1 h2 => by omega)]
  rw [scanCalls_goods cs hd cs 0 0 false (by simp) (fun _ => rfl)
    (fun q h1 h2 => by omega)]
  rw [goodsFromK_eq hk cs cs.length 0 (by omega)]

theorem concatMap_nil_of {A B : Type} (f : A → List B) (l : List A)
    (h : ∀ x ∈ l, f x = []) : concatMap f l = [] := by
  induction l with
  | nil => rfl
  | cons x t ih =>
    simp only [concatMap, h x (by simp)]
    exact ih (fun y hy => h y (by simp [hy]))

theorem concatMap_congr {A B : Type} (f g : A → List B) (l : List A)
    (h : ∀ x ∈ l, f x = g x) : concatMap f l = concatMap g l := by
  induction l with
  | nil => rfl
  | cons x t ih =>
    simp only [concatMap, h x (by simp)]
    rw [ih (fun y hy => h y (by simp [hy]))]

theorem map_filter_concatMap {A B C : Type} (g : A → List B) (p : B → Bool) (h : B → C)
    (l : List A) :
    ((concatMap g l).filter p).map h = concatMap (fun x => ((g x).filter p).map h) l := by
  induction l with
  | nil => rfl
  | cons x t ih =>
    simp only [concatMap, List.filter_append, List.map_append]
    rw [ih]

theorem callsFor_addCall (idx : List (String × List (String × Nat))) (e : String × String × Nat)
    (kk : String) :
    callsFor (addCall idx e) kk =
      if e.1 = kk then callsFor idx kk ++ [e.2] else callsFor idx kk := by
  induction idx with
  | nil =>
    by_cases h1 : e.1 = kk
    · rw [if_pos h1]
      simp [addCall, callsFor, List.lookup, h1]
    · rw [if_neg h1]
      have hb : (kk == e.1) = false := by
        simp
        exact fun hc => h1 hc.symm
      simp [addCall, callsFor, List.lookup, hb]
  | cons a t ih =>
    obtain ⟨k2, locs⟩ := a
    by_cases h2 : k2 = e.1
    · simp only [addCall, if_pos h2]
      by_cases h3 : kk = k2
      · have h4 : e.1 = kk := by rw [← h2, h3]
        rw [if_pos h4]
        have hb : (kk == k2) = true := by simpa using h3
        simp [callsFor, List.lookup, hb]
      · have h4 : ¬ (e.1 = kk) := by
          intro hc
          exact h3 (by rw [hc] at h2; exact h2.symm)
        rw [if_neg h4]
        have hb : (kk == k2) = false := by simpa using h3
        simp [callsFor, List.lookup, hb]
    · simp only [addCall, if_neg h2]
      by_cases h3 : kk = k2
      · have h4 : ¬ (e.1 = kk) := by
          intro hc
          exact h2 (by rw [hc, h3])
        rw [if_neg h4]
        have hb : (kk == k2) = true := by simpa using h3
        simp [callsFor, List.lookup, hb]
      · have hb : (kk == k2) = false := by simpa using h3
        by_cases h4 : e.1 = kk
        · rw [if_pos h4]
          rw [show callsFor ((k2, locs) :: addCall t e) kk = callsFor (addCall t e) kk from by
            simp [callsFor, List.lookup, hb]]
          rw [show callsFor ((k2, locs) :: t) kk = callsFor t kk from by
            simp [callsFor, List.lookup, hb]]
          rw [ih, if_pos h4]
        · rw [if_neg h4]
          rw [show callsFor ((k2, locs) :: addCall t e) kk = callsFor (addCall t e) kk from by
            simp [callsFor, List.lookup, hb]]
          rw [show callsFor ((k2, locs) :: t) kk = callsFor t kk from by
            simp [callsFor, List.lookup, hb]]
          rw [ih, if_neg h4]

theorem callsFor_foldl (kk : String) :
    ∀ (pairs : List (String × String × Nat)) (idx : List (String × List (String × Nat))),
      callsFor (pairs.foldl addCall idx) kk =
        callsFor idx kk ++ (pairs.filter (fun e => decide (e.1 = kk))).map (fun e => e.2) := by
  intro pairs
  induction pairs with
  | nil => intro idx; simp
  | cons e t ih =>
    intro idx
    simp only [List.foldl_cons, List.filter_cons]
    rw [ih (addCall idx e), callsFor_addCall]
    by_cases h1 : e.1 = kk
    · rw [if_pos h1]
      simp only [h1, decide_eq_true_eq, if_pos trivial, List.map_cons]
      rw [List.append_assoc]
      rfl
    · rw [if_neg h1]
      simp only [decide_eq_true_eq, h1, if_false]

theorem labelPairs_nil (tree : List (String × List Char))
    (h : ∀ sp ∈ specialFiles, lookupFile tree sp = none) : labelPairs tree = [] := by
  refine concatMap_nil_of _ _ ?_
  intro sp hsp
  unfold labelCalls
  rw [h sp hsp]

/-- C8, amended: the per-key scan and the global scan agree — the same
(file, line) records in the same order — for every key over the valid
character class, on every tree in which the recognized call matches of
each scanned file occupy pairwise-disjoint text regions and none of the
indirect-usage (labelKey) special files is present. -/
theorem spec_C8 (k : String) (tree : List (String × List Char))
    (hk : validKey k.data = true)
    (hd : ∀ f ∈ scanFiles tree, DisjointCalls (stripComments f.2))
    (hsp : ∀ sp ∈ specialFiles, lookupFile tree sp = none) :
    findUsage k tree = callsFor (findAllCalls tree) k := by
  unfold findUsage findAllCalls
  rw [labelPairs_nil tree hsp]
  simp only [List.foldl_nil]
  unfold buildIdx
  rw [callsFor_foldl k (directCalls tree) []]
  rw [show callsFor [] k = [] from rfl]
  rw [List.nil_append]
  unfold directCalls
  rw [map_filter_concatMap]
  refine concatMap_congr _ _ _ ?_
  intro f hf
  rw [usesOf_eq_calls k (stripComments f.2) hk (hd f hf)]
  rw [List.map_map, List.filter_map, List.map_map]
  rfl

/-- Counterexample for C8 as frozen: with one call nested in the argument
list of another, the per-key scan for y finds the inner call but the
global scan, having consumed it inside the enclosing match, records
nothing under y. -/
theorem spec_C8_counterexample :
    findUsage "y" treeNested = [("a.ts", 1)] ∧
    callsFor (findAllCalls treeNested) "y" = [] := by
  refine ⟨by decide, by decide⟩

/-- Witness for C8 on a tree with one plain call. -/
theorem spec_C8_witness : findUsage "k" treePlain = callsFor (findAllCalls treePlain) "k" :=
  spec_C8 "k" treePlain (by decide) (by decide) (by decide)

end I18n
